import Mathlib

/-!
Verification of the van-pool slab allocator and pool registry
(source: src/pool.h, src/main.cpp).

The C++ code is shallowly embedded:

* `Pool` models `van::pool::Pool<T>`.  Slot addresses are abstracted to
  natural numbers; a freshly malloc'ed block of `cnt_` slots occupies the
  address range `[total_cnt_, total_cnt_ + cnt_)` at the moment of its
  allocation, which keeps all blocks pairwise disjoint exactly as distinct
  malloc regions are.  The null pointers `curr_ = last_ = nullptr` of a
  fresh pool are both address `0`, so the C++ test `curr_ >= last_`
  becomes `last_ ≤ curr_` and fires on the first `get()` as in the source.
* `use_cnt_` is a C++ `uint64_t`; its increment and decrement are modelled
  with explicit arithmetic modulo `2 ^ 64`.  `total_cnt_` is also
  `uint64_t` but only ever grows by the block size, so its overflow is not
  reachable and it is modelled as `Nat`.
* `Channel` and `Monitor` model the registry: `std::type_index` and the
  type-erased `Pool<void>*` identities become naturals, the
  `unordered_map`/`unordered_set` pair becomes an association list of
  duplicate-free lists, and the calls an observer receives become an
  explicit event list.
-/

namespace VanPool

/-- `2 ^ 64`, the modulus of the C++ `uint64_t` counters. -/
def U64 : Nat := 2 ^ 64

/-- State of `van::pool::Pool<T>` (src/pool.h:103-204).  `curr_`, `last_`
are the bump cursor and its end-of-block boundary, `free_` the intrusive
free list (head first), `blocks_` the block list (head first, each block
named by its base address), `cnt_` the configured slots-per-block count. -/
structure Pool where
  curr_ : Nat
  last_ : Nat
  free_ : List Nat
  blocks_ : List Nat
  cnt_ : Nat
  total_cnt_ : Nat
  use_cnt_ : Nat
deriving Repr, DecidableEq

/-- `Pool<T>::new_block` (src/pool.h:192-202): malloc a block of `cnt_`
slots (fresh addresses `[total_cnt_, total_cnt_ + cnt_)`), link it at the
head of the block list, reset cursor and boundary, grow `total_cnt_`. -/
def new_block (p : Pool) : Pool :=
  { p with
    blocks_ := p.total_cnt_ :: p.blocks_
    curr_ := p.total_cnt_
    last_ := p.total_cnt_ + p.cnt_
    total_cnt_ := p.total_cnt_ + p.cnt_ }

/-- The member-initialized state of a `Pool<T>` before its constructor
body runs: null cursors, empty free and block lists, `cnt_ = 128`. -/
def poolInit : Pool :=
  { curr_ := 0, last_ := 0, free_ := [], blocks_ := []
    cnt_ := 128, total_cnt_ := 0, use_cnt_ := 0 }

/-- `Pool<T>::Pool(int cnt = 0)` (src/pool.h:130-138): a positive argument
overrides `cnt_` and eagerly allocates one block; otherwise the defaults
stand.  (The `Channel::created` registration call is modelled separately.) -/
def mkPool (cnt : Int) : Pool :=
  if 0 < cnt then new_block { poolInit with cnt_ := cnt.toNat } else poolInit

/-- `Pool<T>::get` (src/pool.h:155-169): bump `use_cnt_` (uint64), pop the
free list if non-empty, otherwise grow when `curr_ >= last_` and serve the
bump cursor. -/
def get (p : Pool) : Nat × Pool :=
  let p1 : Pool := { p with use_cnt_ := (p.use_cnt_ + 1) % U64 }
  match p1.free_ with
  | a :: rest => (a, { p1 with free_ := rest })
  | [] =>
    let p2 : Pool := if p1.last_ ≤ p1.curr_ then new_block p1 else p1
    (p2.curr_, { p2 with curr_ := p2.curr_ + 1 })

/-- `Pool<T>::ret` (src/pool.h:171-178): drop `use_cnt_` (uint64) and push
the returned slot onto the free list. -/
def ret (p : Pool) (a : Nat) : Pool :=
  { p with
    use_cnt_ := (p.use_cnt_ + (U64 - 1)) % U64
    free_ := a :: p.free_ }

/-- `Pool<T>::total_cnt` (src/pool.h:181-184), kept as a (value, post
state) pair to record that the accessor does not write the pool. -/
def total_cnt (p : Pool) : Nat × Pool := (p.total_cnt_, p)

/-- `Pool<T>::use_cnt` (src/pool.h:186-189), same shape as `total_cnt`. -/
def use_cnt (p : Pool) : Nat × Pool := (p.use_cnt_, p)

/-- One client call on a pool: `get()` or `ret(a)`. -/
inductive Op where
  | get : Op
  | ret : Nat → Op
deriving Repr, DecidableEq

/-- Apply one call, discarding `get`'s return value. -/
def step (p : Pool) : Op → Pool
  | Op.get => (get p).2
  | Op.ret a => ret p a

/-- Run a call sequence left to right. -/
def run (p : Pool) (ops : List Op) : Pool := ops.foldl step p

/-- Run a call sequence, also collecting the addresses `get` returned. -/
def runTrace (p : Pool) : List Op → List Nat × Pool
  | [] => ([], p)
  | Op.get :: ops =>
    let r := get p
    let t := runTrace r.2 ops
    (r.1 :: t.1, t.2)
  | Op.ret a :: ops => runTrace (ret p a) ops

/-- Number of `get` calls in a sequence. -/
def countGets (ops : List Op) : Nat := ops.countP fun o => o = Op.get

/-- Number of `ret` calls in a sequence. -/
def countRets (ops : List Op) : Nat := ops.countP fun o => o ≠ Op.get

/-- A call sequence is valid from a pool state and a list of
already-issued addresses when every `ret` hands back an address some
earlier `get` issued (the unchecked contract of `Pool<T>::ret`). -/
def validFrom (issued : List Nat) (p : Pool) : List Op → Bool
  | [] => true
  | Op.get :: ops =>
    let r := get p
    validFrom (r.1 :: issued) r.2 ops
  | Op.ret a :: ops => a ∈ issued && validFrom issued (ret p a) ops

example : mkPool 4 = ⟨0, 4, [], [0], 4, 4, 0⟩ := by decide

/-- `std::type_index`, abstracted to a number. -/
abbrev TypeIdx := Nat

/-- The type-erased `Pool<void>*` identity, abstracted to a number. -/
abbrev PoolId := Nat

/-- `van::pool::Pools = unordered_map<type_index, unordered_set<Pool<void>*>>`
(src/pool.h:19), modelled as an association list of duplicate-free lists. -/
abbrev Pools := List (TypeIdx × List PoolId)

/-- Look up the pool set stored under a type, if any. -/
def findSet : Pools → TypeIdx → Option (List PoolId)
  | [], _ => none
  | (t, s) :: rest, u => if t = u then some s else findSet rest u

/-- `unordered_set::insert`: a no-op on an element already present. -/
def setInsert (a : PoolId) (s : List PoolId) : List PoolId :=
  if a ∈ s then s else s ++ [a]

/-- `unordered_set::erase`: drop the element (first hit; sets hold it at
most once). -/
def setErase (a : PoolId) : List PoolId → List PoolId
  | [] => []
  | x :: rest => if x = a then rest else x :: setErase a rest

/-- `pools_[t].insert(p)`: `operator[]` default-constructs a missing
entry, then the set insert runs. -/
def insertPool (t : TypeIdx) (p : PoolId) : Pools → Pools
  | [] => [(t, [p])]
  | (u, s) :: rest =>
    if u = t then (u, setInsert p s) :: rest else (u, s) :: insertPool t p rest

/-- `pools_[t].erase(p)`: `operator[]` default-constructs a missing entry,
then the set erase runs. -/
def erasePool (t : TypeIdx) (p : PoolId) : Pools → Pools
  | [] => [(t, [])]
  | (u, s) :: rest =>
    if u = t then (u, setErase p s) :: rest else (u, s) :: erasePool t p rest

/-- `unordered_map::erase(t)`: drop the entry keyed `t` (first hit; keys
are unique). -/
def eraseEntry (t : TypeIdx) : Pools → Pools
  | [] => []
  | (u, s) :: rest => if u = t then rest else (u, s) :: eraseEntry t rest

/-- One call an `IMonitor` observer receives (src/pool.h:21-25). -/
inductive Event where
  | created : TypeIdx → PoolId → Event
  | deleted : TypeIdx → PoolId → Event
deriving Repr, DecidableEq

/-- Occurrences of an event in an emitted list. -/
def countEv (e : Event) : List Event → Nat
  | [] => 0
  | x :: rest => (if x = e then 1 else 0) + countEv e rest

/-- The `created` calls the `pass_all` loop body emits for a buffer
(src/pool.h:91-98). -/
def passList : Pools → List Event
  | [] => []
  | (t, s) :: rest => s.map (Event.created t) ++ passList rest

/-- State of `van::pool::Channel` (src/pool.h:28-101): the buffered map
and whether an observer is attached (`mon_ != nullptr`). -/
structure Channel where
  pools_ : Pools
  mon_ : Bool
deriving Repr, DecidableEq

/-- `Channel::pass_all` (src/pool.h:86-99): with an observer attached,
re-announce every buffered pool as `created` (an empty buffer emits
nothing, matching the early return). -/
def pass_all (ch : Channel) : List Event :=
  if ch.mon_ then passList ch.pools_ else []

/-- `Channel::created` (src/pool.h:53-67): with an observer, forward the
one `created` and then replay the buffer, leaving the buffer untouched;
without one, record the pool in the buffer.  Returns the new channel
state and the calls the observer received. -/
def chCreated (t : TypeIdx) (p : PoolId) (ch : Channel) : Channel × List Event :=
  if ch.mon_ then (ch, Event.created t p :: pass_all ch)
  else ({ ch with pools_ := insertPool t p ch.pools_ }, [])

/-- `Channel::deleted` (src/pool.h:69-83): mirror of `chCreated` with an
erase in the buffered branch. -/
def chDeleted (t : TypeIdx) (p : PoolId) (ch : Channel) : Channel × List Event :=
  if ch.mon_ then (ch, Event.deleted t p :: pass_all ch)
  else ({ ch with pools_ := erasePool t p ch.pools_ }, [])

/-- `Channel::set` (src/pool.h:46-51): swap the observer, then `pass_all`
(which replays the buffer exactly when the new observer is attached). -/
def chSet (b : Bool) (ch : Channel) : Channel × List Event :=
  let ch2 : Channel := { ch with mon_ := b }
  (ch2, pass_all ch2)

/-- A pool-lifetime request reaching the channel: constructor or
destructor of a pool of some type. -/
inductive Req where
  | create : TypeIdx → PoolId → Req
  | delete : TypeIdx → PoolId → Req
deriving Repr, DecidableEq

/-- Feed one request to the channel, discarding emitted events. -/
def chStep (ch : Channel) : Req → Channel
  | Req.create t p => (chCreated t p ch).1
  | Req.delete t p => (chDeleted t p ch).1

/-- Feed a request sequence to the channel. -/
def chRun (ch : Channel) (reqs : List Req) : Channel := reqs.foldl chStep ch

/-- Whether a pool identity is live (constructed last, not destroyed
since) after a request trace, read off the trace alone. -/
def liveStep (t : TypeIdx) (p : PoolId) (b : Bool) : Req → Bool
  | Req.create u q => if u = t ∧ q = p then true else b
  | Req.delete u q => if u = t ∧ q = p then false else b

/-- A pool is live after a trace when its last create/delete request was
a create. -/
def liveTrace (t : TypeIdx) (p : PoolId) (reqs : List Req) : Bool :=
  reqs.foldl (liveStep t p) false

/-- State of `van::pool::Monitor` (src/pool.h:345-403): its own map of
live pools per type. -/
structure MonitorSt where
  pools_ : Pools
deriving Repr, DecidableEq

/-- `Monitor::created` (src/pool.h:367-371). -/
def monCreated (t : TypeIdx) (p : PoolId) (m : MonitorSt) : MonitorSt :=
  ⟨insertPool t p m.pools_⟩

/-- `Monitor::deleted` (src/pool.h:373-381): erase the identity from the
type's set (`operator[]` default-constructs a missing entry) and drop the
type entry when the set became empty. -/
def monDeleted (t : TypeIdx) (p : PoolId) (m : MonitorSt) : MonitorSt :=
  let ps : Pools := erasePool t p m.pools_
  if (findSet ps t).getD [] = [] then ⟨eraseEntry t ps⟩ else ⟨ps⟩

/-- Apply a batch of observer calls to the monitor, in order. -/
def monApply (m : MonitorSt) : List Event → MonitorSt
  | [] => m
  | Event.created t p :: es => monApply (monCreated t p m) es
  | Event.deleted t p :: es => monApply (monDeleted t p m) es

/-- `van::pool::Count` (src/pool.h:335-340). -/
structure Count where
  total_ : Nat
  use_ : Nat
  pool_ : Nat
deriving Repr, DecidableEq

/-- `Monitor::stat` as a pure reading of an environment that maps each
pool identity to its `(total_cnt, use_cnt)` counters (src/pool.h:383-401). -/
def stat (m : MonitorSt) (env : PoolId → Nat × Nat) : List (TypeIdx × Count) :=
  m.pools_.map fun ts =>
    (ts.1,
      ⟨(ts.2.map fun p => (env p).1).sum,
       (ts.2.map fun p => (env p).2).sum,
       ts.2.length⟩)

/-- The channel/monitor pair with the monitor attached as the observer:
every event the channel emits is applied to the monitor at once. -/
structure System where
  ch : Channel
  mon : MonitorSt
deriving Repr, DecidableEq

/-- The state right after `Monitor`'s constructor ran first, on a fresh
channel: `set(this)` on an empty buffer replays nothing. -/
def sys0 : System := ⟨(chSet true ⟨[], false⟩).1, ⟨[]⟩⟩

/-- A pool construction or destruction flowing through the channel to the
attached monitor. -/
def sysStep (s : System) : Req → System
  | Req.create t p =>
    let r := chCreated t p s.ch
    ⟨r.1, monApply s.mon r.2⟩
  | Req.delete t p =>
    let r := chDeleted t p s.ch
    ⟨r.1, monApply s.mon r.2⟩

/-- Run a request sequence on the attached system. -/
def sysRun (s : System) (reqs : List Req) : System := reqs.foldl sysStep s

example : sys0 = ⟨⟨[], true⟩, ⟨[]⟩⟩ := by decide
example : (sysRun sys0 [Req.create 1 10, Req.create 1 11, Req.delete 1 10]).mon
    = ⟨[(1, [11])]⟩ := by decide
example : (chSet true (chRun ⟨[], false⟩ [Req.create 1 10, Req.create 2 20, Req.delete 1 10])).2
    = [Event.created 2 20] := by decide

/-- Release a batch of slots with consecutive `ret` calls, left to right. -/
def retMany (p : Pool) (xs : List Nat) : Pool := xs.foldl ret p

/-- Acquire `n` slots with consecutive `get` calls, collecting the
returned addresses in call order. -/
def getMany (p : Pool) : Nat → List Nat × Pool
  | 0 => ([], p)
  | n + 1 =>
    let r := get p
    let t := getMany r.2 n
    (r.1 :: t.1, t.2)

example : (getMany (retMany (mkPool 4) [5, 6, 7, 8]) 4).1 = [8, 7, 6, 5] := by decide

/-- The heap of live pools the type-erased `Pool<void>*` identities point
into, for running `Monitor::stat` statefully. -/
abbrev World := List (PoolId × Pool)

/-- Dereference a pool identity (a dangling identity reads an
arbitrary-but-fixed pool, as a stand-in for the C++ undefined read). -/
def worldGet (w : World) (i : PoolId) : Pool :=
  match w with
  | [] => poolInit
  | (j, p) :: rest => if j = i then p else worldGet rest i

/-- Write a pool back through its identity (first hit; a dangling
identity writes nowhere). -/
def worldSet (w : World) (i : PoolId) (p : Pool) : World :=
  match w with
  | [] => []
  | (j, q) :: rest => if j = i then (j, p) :: rest else (j, q) :: worldSet rest i p

/-- The inner loop of `Monitor::stat` (src/pool.h:392-396): call the two
counter accessors on every pool of one set, summing, and store each
accessor's post state back into the heap. -/
def statSet (w : World) : List PoolId → (Nat × Nat) × World
  | [] => ((0, 0), w)
  | i :: rest =>
    let r1 := total_cnt (worldGet w i)
    let r2 := use_cnt r1.2
    let w1 := worldSet w i r2.2
    let t := statSet w1 rest
    ((r1.1 + t.1.1, r2.1 + t.1.2), t.2)

/-- The outer loop of `Monitor::stat` (src/pool.h:388-399). -/
def statGo (w : World) : Pools → List (TypeIdx × Count) × World
  | [] => ([], w)
  | (t, s) :: rest =>
    let r := statSet w s
    let o := statGo r.2 rest
    ((t, ⟨r.1.1, r.1.2, s.length⟩) :: o.1, o.2)

/-- `Monitor::stat` threaded through the monitor state and the pool heap,
returning the snapshot and both post states. -/
def statW (m : MonitorSt) (w : World) : List (TypeIdx × Count) × MonitorSt × World :=
  let r := statGo w m.pools_
  (r.1, m, r.2)

/-- The pure counter environment a heap induces. -/
def envOf (w : World) (i : PoolId) : Nat × Nat :=
  ((worldGet w i).total_cnt_, (worldGet w i).use_cnt_)

example : statW ⟨[(1, [10])]⟩ [(10, mkPool 3)]
    = ([(1, ⟨3, 0, 1⟩)], ⟨[(1, [10])]⟩, [(10, mkPool 3)]) := by decide

/-! ### Case analysis of `get` -/

/-- With a non-empty free list, `get` pops its head. -/
lemma get_free_cons (p : Pool) (a : Nat) (rest : List Nat) (h : p.free_ = a :: rest) :
    get p = (a, { p with use_cnt_ := (p.use_cnt_ + 1) % U64, free_ := rest }) := by
  simp [get, h]

/-- With an empty free list and room in the current block, `get` serves
the bump cursor and advances it. -/
lemma get_bump (p : Pool) (h : p.free_ = []) (hc : p.curr_ < p.last_) :
    get p = (p.curr_, { p with use_cnt_ := (p.use_cnt_ + 1) % U64, curr_ := p.curr_ + 1 }) := by
  simp [get, h, Nat.not_le.mpr hc]

/-- With an empty free list and an exhausted (or absent) block, `get`
grows by one block and serves that block's first slot. -/
lemma get_grow (p : Pool) (h : p.free_ = []) (hc : p.last_ ≤ p.curr_) :
    get p = (p.total_cnt_,
      { p with use_cnt_ := (p.use_cnt_ + 1) % U64,
               blocks_ := p.total_cnt_ :: p.blocks_,
               curr_ := p.total_cnt_ + 1,
               last_ := p.total_cnt_ + p.cnt_,
               total_cnt_ := p.total_cnt_ + p.cnt_ }) := by
  simp [get, h, hc, new_block]

/-- `get` always bumps `use_cnt_` modulo `2 ^ 64`, whatever branch runs. -/
lemma get_use (p : Pool) : (get p).2.use_cnt_ = (p.use_cnt_ + 1) % U64 := by
  rcases h : p.free_ with _ | ⟨a, rest⟩
  · rcases Nat.lt_or_ge p.curr_ p.last_ with hc | hc
    · rw [get_bump p h hc]
    · rw [get_grow p h hc]
  · rw [get_free_cons p a rest h]

/-- `get` never changes the configured block size. -/
lemma get_cnt (p : Pool) : (get p).2.cnt_ = p.cnt_ := by
  rcases h : p.free_ with _ | ⟨a, rest⟩
  · rcases Nat.lt_or_ge p.curr_ p.last_ with hc | hc
    · rw [get_bump p h hc]
    · rw [get_grow p h hc]
  · rw [get_free_cons p a rest h]

/-- `get` never shrinks `total_cnt_`. -/
lemma get_total_le (p : Pool) : p.total_cnt_ ≤ (get p).2.total_cnt_ := by
  rcases h : p.free_ with _ | ⟨a, rest⟩
  · rcases Nat.lt_or_ge p.curr_ p.last_ with hc | hc
    · rw [get_bump p h hc]
    · rw [get_grow p h hc]; exact Nat.le_add_right _ _
  · rw [get_free_cons p a rest h]

/-- Claim C1: `get()` pops the head of a non-empty free list; otherwise,
when the bump cursor has reached the current block's end (or no block
exists yet, both cursors still null), it allocates a new block of the
configured slot count (default 128 when no positive size was given),
links it at the head of the block list, resets the cursor to the block's
first slot and the boundary to its end, adds the block's slot count to
`total_cnt`; in either non-free-list case it returns the slot at the bump
cursor and advances the cursor by one. -/
theorem claim_c1_get_growth (p : Pool) :
    (∀ a rest, p.free_ = a :: rest →
      get p = (a, { p with use_cnt_ := (p.use_cnt_ + 1) % U64, free_ := rest })) ∧
    (p.free_ = [] → p.curr_ < p.last_ →
      get p = (p.curr_, { p with use_cnt_ := (p.use_cnt_ + 1) % U64, curr_ := p.curr_ + 1 })) ∧
    (p.free_ = [] → p.last_ ≤ p.curr_ →
      get p = (p.total_cnt_,
        { p with use_cnt_ := (p.use_cnt_ + 1) % U64,
                 blocks_ := p.total_cnt_ :: p.blocks_,
                 curr_ := p.total_cnt_ + 1,
                 last_ := p.total_cnt_ + p.cnt_,
                 total_cnt_ := p.total_cnt_ + p.cnt_ })) ∧
    (∀ c : Int, c ≤ 0 → (mkPool c).cnt_ = 128) :=
  ⟨fun a rest h => get_free_cons p a rest h,
   fun h hc => get_bump p h hc,
   fun h hc => get_grow p h hc,
   fun c hc => by simp [mkPool, poolInit, Int.not_lt.mpr hc]⟩

/-- Concrete instance of C1: the very first `get()` on a default pool
allocates the 128-slot block `[0, 128)` and returns slot 0. -/
theorem claim_c1_witness :
    get poolInit = (0, ⟨1, 128, [], [0], 128, 128, 1⟩) ∧ (0 : Int) ≤ 0 ∧ (mkPool 0).cnt_ = 128 :=
  ⟨(claim_c1_get_growth poolInit).2.2.1 rfl (by decide),
   le_refl 0, (claim_c1_get_growth poolInit).2.2.2 0 (by decide)⟩

/-! ### LIFO reuse of the free list -/

/-- Consecutive `ret` calls stack their addresses on the free list in
reverse call order. -/
lemma retMany_free (xs : List Nat) : ∀ p : Pool,
    (retMany p xs).free_ = xs.reverse ++ p.free_ := by
  induction xs with
  | nil => intro p; simp [retMany]
  | cons x xs ih =>
    intro p
    show (retMany (ret p x) xs).free_ = _
    rw [ih (ret p x)]
    simp [ret]

/-- While the free list is long enough, `n` consecutive `get` calls
return its first `n` entries in order. -/
lemma getMany_free (n : Nat) : ∀ p : Pool, n ≤ p.free_.length →
    (getMany p n).1 = p.free_.take n := by
  induction n with
  | zero => intro p _; simp [getMany]
  | succ n ih =>
    intro p h
    rcases hf : p.free_ with _ | ⟨a, rest⟩
    · rw [hf] at h; exact absurd h (by simp)
    · have hg := get_free_cons p a rest hf
      show ((get p).1 :: (getMany (get p).2 n).1, _).1 = _
      rw [hg]
      have : n ≤ rest.length := by
        rw [hf] at h; simpa using h
      rw [ih _ (by simpa using this)]
      simp

/-- Claim C6: a `ret(p)` immediately followed by `get()` hands back the
identical address, and more generally slots released by consecutive
`ret` calls are handed back by subsequent `get` calls in reverse release
order (LIFO), with no intervening growth. -/
theorem claim_c6_lifo_reuse :
    (∀ (p : Pool) (a : Nat), (get (ret p a)).1 = a) ∧
    (∀ (p : Pool) (xs : List Nat), (getMany (retMany p xs) xs.length).1 = xs.reverse) := by
  constructor
  · intro p a
    rw [get_free_cons (ret p a) a p.free_ rfl]
  · intro p xs
    have hlen : xs.length ≤ (retMany p xs).free_.length := by
      rw [retMany_free]; simp
    rw [getMany_free xs.length (retMany p xs) hlen, retMany_free]
    rw [show xs.length = xs.reverse.length by simp]
    exact List.take_left xs.reverse p.free_

/-! ### The `use_cnt_` gauge -/

/-- Running a call sequence turns `use_cnt_` into the modular sum of one
per `get` and `2 ^ 64 - 1` (the uint64 decrement) per `ret`. -/
lemma run_use (ops : List Op) : ∀ p : Pool, p.use_cnt_ < U64 →
    (run p ops).use_cnt_ =
      (p.use_cnt_ + countGets ops + countRets ops * (U64 - 1)) % U64 := by
  induction ops with
  | nil =>
    intro p hp
    simp [run, countGets, countRets, Nat.mod_eq_of_lt hp]
  | cons o ops ih =>
    intro p hp
    have hU : 0 < U64 := by decide
    cases o with
    | get =>
      have h1 : run p (Op.get :: ops) = run (get p).2 ops := rfl
      rw [h1, ih (get p).2 (by rw [get_use]; exact Nat.mod_lt _ hU), get_use]
      rw [Nat.add_assoc, Nat.mod_add_mod, ← Nat.add_assoc]
      have hG : countGets (Op.get :: ops) = countGets ops + 1 := by
        simp [countGets, List.countP_cons]
      have hR : countRets (Op.get :: ops) = countRets ops := by
        simp [countRets, List.countP_cons]
      rw [hG, hR]
      exact congrArg (fun x => x % U64) (by ring)
    | ret a =>
      have h1 : run p (Op.ret a :: ops) = run (ret p a) ops := rfl
      have h2 : (ret p a).use_cnt_ = (p.use_cnt_ + (U64 - 1)) % U64 := rfl
      rw [h1, ih (ret p a) (by rw [h2]; exact Nat.mod_lt _ hU), h2]
      rw [Nat.add_assoc, Nat.mod_add_mod, ← Nat.add_assoc]
      have hG : countGets (Op.ret a :: ops) = countGets ops := by
        simp [countGets, List.countP_cons]
      have hR : countRets (Op.ret a :: ops) = countRets ops + 1 := by
        simp [countRets, List.countP_cons]
      rw [hG, hR]
      exact congrArg (fun x => x % U64) (by ring)

/-- `ret` decrements `use_cnt_` modulo `2 ^ 64`. -/
lemma ret_use (p : Pool) (a : Nat) :
    (ret p a).use_cnt_ = (p.use_cnt_ + (U64 - 1)) % U64 := rfl

/-- Claim C5: after any interleaving of `N` `get()` and `M` `ret()` calls
with `M ≤ N` (and the difference expressible in a uint64), `use_cnt()`
reports exactly `N − M`; moreover `get()` increments the gauge by one and
`ret()` decrements it by one whenever no uint64 wrap occurs. -/
theorem claim_c5_use_gauge (c : Int) (ops : List Op)
    (h1 : countRets ops ≤ countGets ops)
    (h2 : countGets ops - countRets ops < U64) :
    (run (mkPool c) ops).use_cnt_ = countGets ops - countRets ops ∧
    (∀ p : Pool, p.use_cnt_ + 1 < U64 → (get p).2.use_cnt_ = p.use_cnt_ + 1) ∧
    (∀ (p : Pool) (a : Nat), 0 < p.use_cnt_ → p.use_cnt_ < U64 →
      (ret p a).use_cnt_ = p.use_cnt_ - 1) := by
  refine ⟨?_, ?_, ?_⟩
  · have h0 : (mkPool c).use_cnt_ = 0 := by
      by_cases hc : 0 < c <;> simp [mkPool, hc, new_block, poolInit]
    rw [run_use ops (mkPool c) (by rw [h0]; decide), h0]
    set G := countGets ops
    set R := countRets ops
    have hmul : R * (U64 - 1) + R = R * U64 := by
      have : R * (U64 - 1) + R * 1 = R * (U64 - 1 + 1) := (Nat.mul_add R _ _).symm
      simpa using this
    have hx : 0 + G + R * (U64 - 1) = (G - R) + R * U64 := by omega
    rw [hx, Nat.add_mul_mod_self_right]
    exact Nat.mod_eq_of_lt h2
  · intro p hp
    rw [get_use]
    exact Nat.mod_eq_of_lt hp
  · intro p a hp hlt
    rw [ret_use]
    have hx : p.use_cnt_ + (U64 - 1) = (p.use_cnt_ - 1) + 1 * U64 := by
      have hU : (0 : Nat) < U64 := by decide
      omega
    rw [hx, Nat.add_mul_mod_self_right]
    exact Nat.mod_eq_of_lt (by omega)

/-- Concrete instance of C5: three `get`s and one `ret` leave a gauge of
exactly 2. -/
theorem claim_c5_witness :
    (run (mkPool 0) [Op.get, Op.get, Op.ret 0, Op.get]).use_cnt_ = 2 := by
  have h := claim_c5_use_gauge 0 [Op.get, Op.get, Op.ret 0, Op.get]
    (by decide) (by decide)
  exact h.1

/-- Claim C10: `use_cnt_` is a uint64 counter, so after `N` `get()` and
`M` `ret()` calls it reads `(N − M)` modulo `2 ^ 64`; in particular a
`ret()` at gauge 0 wraps to `2 ^ 64 − 1`. -/
theorem claim_c10_uint64_wrap (c : Int) (ops : List Op) :
    ((run (mkPool c) ops).use_cnt_ : Int)
        = ((countGets ops : Int) - countRets ops) % (2 ^ 64) ∧
    (∀ (p : Pool) (a : Nat), p.use_cnt_ = 0 → (ret p a).use_cnt_ = 2 ^ 64 - 1) := by
  constructor
  · have h0 : (mkPool c).use_cnt_ = 0 := by
      by_cases hc : 0 < c <;> simp [mkPool, hc, new_block, poolInit]
    rw [run_use ops (mkPool c) (by rw [h0]; decide), h0]
    have hz : ((0 + countGets ops + countRets ops * (U64 - 1)) % U64 : Nat)
        = ((countGets ops + countRets ops * (U64 - 1)) % U64 : Nat) := by norm_num
    rw [hz]
    push_cast [Nat.cast_sub (by decide : (1 : Nat) ≤ U64)]
    have hU : ((U64 : Nat) : Int) = 2 ^ 64 := by norm_num [U64]
    rw [hU]
    have hx : (countGets ops : Int) + (countRets ops : Int) * (2 ^ 64 - 1)
        = ((countGets ops : Int) - countRets ops) + 2 ^ 64 * countRets ops := by ring
    rw [hx, Int.add_mul_emod_self_left]
    norm_num
  · intro p a hp
    rw [ret_use, hp]
    decide

/-! ### Pool invariants -/

/-- Reachable-state invariant of a pool: the cursor sits inside the
current block, every block lies below `total_cnt_`, every free slot was
carved from some block, and the block size is positive. -/
def Inv (p : Pool) : Prop :=
  p.curr_ ≤ p.last_ ∧ p.last_ ≤ p.total_cnt_ ∧
  (∀ a ∈ p.free_, a < p.total_cnt_) ∧ 0 < p.cnt_

/-- A constructed pool satisfies the invariant. -/
lemma inv_mkPool (c : Int) : Inv (mkPool c) := by
  by_cases hc : 0 < c
  · refine ⟨?_, ?_, ?_, ?_⟩ <;> simp [mkPool, hc, new_block, poolInit]
  · refine ⟨?_, ?_, ?_, ?_⟩ <;> simp [mkPool, hc, poolInit]

/-- `get` preserves the invariant, returns an address inside the arena,
and never shrinks the arena. -/
lemma get_sound (p : Pool) (hp : Inv p) :
    Inv (get p).2 ∧ (get p).1 < (get p).2.total_cnt_ ∧
    p.total_cnt_ ≤ (get p).2.total_cnt_ := by
  obtain ⟨h1, h2, h3, h4⟩ := hp
  rcases hf : p.free_ with _ | ⟨a, rest⟩
  · rcases Nat.lt_or_ge p.curr_ p.last_ with hc | hc
    · rw [get_bump p hf hc]
      exact ⟨⟨hc, h2, by simp [hf], h4⟩, Nat.lt_of_lt_of_le hc h2, le_refl _⟩
    · rw [get_grow p hf hc]
      refine ⟨⟨?_, le_refl _, by simp [hf], h4⟩, ?_, ?_⟩ <;> simp <;> omega
  · rw [get_free_cons p a rest hf]
    have ha : a < p.total_cnt_ := h3 a (by rw [hf]; exact List.mem_cons_self a rest)
    refine ⟨⟨h1, h2, ?_, h4⟩, ha, le_refl _⟩
    intro b hb
    exact h3 b (by rw [hf]; exact List.mem_cons_of_mem a hb)

/-- `ret` of an in-arena address preserves the invariant. -/
lemma ret_sound (p : Pool) (a : Nat) (hp : Inv p) (ha : a < p.total_cnt_) :
    Inv (ret p a) := by
  obtain ⟨h1, h2, h3, h4⟩ := hp
  refine ⟨h1, h2, ?_, h4⟩
  intro b hb
  rcases List.mem_cons.mp hb with h | h
  · exact h ▸ ha
  · exact h3 b h

/-- Soundness of a valid trace: the invariant holds throughout, the
arena only grows, and every address `get` ever returned lies below the
final `total_cnt_`. -/
lemma trace_sound : ∀ (ops : List Op) (p : Pool) (issued : List Nat),
    Inv p → (∀ a ∈ issued, a < p.total_cnt_) → validFrom issued p ops = true →
    Inv (runTrace p ops).2 ∧ p.total_cnt_ ≤ (runTrace p ops).2.total_cnt_ ∧
    ∀ a ∈ (runTrace p ops).1, a < (runTrace p ops).2.total_cnt_ := by
  intro ops
  induction ops with
  | nil =>
    intro p issued hp _ _
    exact ⟨hp, le_refl _, by simp [runTrace]⟩
  | cons o ops ih =>
    intro p issued hp hiss hv
    cases o with
    | get =>
      obtain ⟨hp2, hlt, hle⟩ := get_sound p hp
      have hiss2 : ∀ a ∈ (get p).1 :: issued, a < (get p).2.total_cnt_ := by
        intro a ha
        rcases List.mem_cons.mp ha with h | h
        · exact h ▸ hlt
        · exact Nat.lt_of_lt_of_le (hiss a h) hle
      have hv2 : validFrom ((get p).1 :: issued) (get p).2 ops = true := hv
      obtain ⟨hinv, hmono, hbound⟩ := ih (get p).2 ((get p).1 :: issued) hp2 hiss2 hv2
      refine ⟨hinv, le_trans hle hmono, ?_⟩
      intro a ha
      have hshape : runTrace p (Op.get :: ops)
          = ((get p).1 :: (runTrace (get p).2 ops).1, (runTrace (get p).2 ops).2) := rfl
      rw [hshape] at ha ⊢
      rcases List.mem_cons.mp ha with h | h
      · rw [h]; exact Nat.lt_of_lt_of_le hlt hmono
      · exact hbound a h
    | ret a =>
      have hv2 : (a ∈ issued) ∧ validFrom issued (ret p a) ops = true := by
        simpa [validFrom] using hv
      have ha : a < p.total_cnt_ := hiss a (by simpa using hv2.1)
      have hp2 : Inv (ret p a) := ret_sound p a hp ha
      have hiss2 : ∀ b ∈ issued, b < (ret p a).total_cnt_ := hiss
      have hshape : runTrace p (Op.ret a :: ops) = runTrace (ret p a) ops := rfl
      rw [hshape]
      exact ih (ret p a) issued hp2 hiss2 hv2.2

/-- One client call never shrinks the arena. -/
lemma step_total_le (p : Pool) (o : Op) : p.total_cnt_ ≤ (step p o).total_cnt_ := by
  cases o with
  | get => exact get_total_le p
  | ret a => exact le_refl _

/-- Nor does a whole call sequence. -/
lemma run_total_le (ops : List Op) : ∀ p : Pool, p.total_cnt_ ≤ (run p ops).total_cnt_ := by
  induction ops with
  | nil => intro p; exact le_refl _
  | cons o ops ih =>
    intro p
    exact le_trans (step_total_le p o) (ih (step p o))

/-- Client calls keep `total_cnt_` a multiple of the block size. -/
lemma step_dvd (p : Pool) (o : Op) (h : p.cnt_ ∣ p.total_cnt_) :
    (step p o).cnt_ ∣ (step p o).total_cnt_ := by
  cases o with
  | get =>
    rcases hf : p.free_ with _ | ⟨a, rest⟩
    · rcases Nat.lt_or_ge p.curr_ p.last_ with hc | hc
      · show (get p).2.cnt_ ∣ (get p).2.total_cnt_
        rw [get_bump p hf hc]
        exact h
      · show (get p).2.cnt_ ∣ (get p).2.total_cnt_
        rw [get_grow p hf hc]
        exact Dvd.dvd.add h (dvd_refl _)
    · show (get p).2.cnt_ ∣ (get p).2.total_cnt_
      rw [get_free_cons p a rest hf]
      exact h
  | ret a => exact h

/-- The multiple-of-block-size invariant along a whole sequence. -/
lemma run_dvd (ops : List Op) : ∀ p : Pool, p.cnt_ ∣ p.total_cnt_ →
    (run p ops).cnt_ ∣ (run p ops).total_cnt_ := by
  induction ops with
  | nil => intro p h; exact h
  | cons o ops ih =>
    intro p h
    exact ih (step p o) (step_dvd p o h)

/-- A constructed pool starts on a block boundary. -/
lemma mkPool_dvd (c : Int) : (mkPool c).cnt_ ∣ (mkPool c).total_cnt_ := by
  by_cases hc : 0 < c <;> simp [mkPool, hc, new_block, poolInit]

/-- Claim C7: along any run, `total_cnt()` never decreases; it is always
a multiple of the configured block slot count; and on a valid trace the
number of distinct slot addresses ever returned by `get()` never exceeds
`total_cnt()`. -/
theorem claim_c7_arena_invariants (c : Int) (ops more : List Op)
    (hv : validFrom [] (mkPool c) ops = true) :
    (run (mkPool c) ops).total_cnt_ ≤ (run (mkPool c) (ops ++ more)).total_cnt_ ∧
    (run (mkPool c) ops).cnt_ ∣ (run (mkPool c) ops).total_cnt_ ∧
    (runTrace (mkPool c) ops).1.toFinset.card ≤ (runTrace (mkPool c) ops).2.total_cnt_ := by
  refine ⟨?_, run_dvd ops (mkPool c) (mkPool_dvd c), ?_⟩
  · rw [show run (mkPool c) (ops ++ more) = run (run (mkPool c) ops) more from
      List.foldl_append step (mkPool c) ops more]
    exact run_total_le more (run (mkPool c) ops)
  · obtain ⟨_, _, hbound⟩ :=
      trace_sound ops (mkPool c) [] (inv_mkPool c) (by simp) hv
    have hsub : (runTrace (mkPool c) ops).1.toFinset
        ⊆ Finset.range (runTrace (mkPool c) ops).2.total_cnt_ := by
      intro a ha
      exact Finset.mem_range.mpr (hbound a (List.mem_toFinset.mp ha))
    calc (runTrace (mkPool c) ops).1.toFinset.card
        ≤ (Finset.range (runTrace (mkPool c) ops).2.total_cnt_).card :=
          Finset.card_le_card hsub
      _ = (runTrace (mkPool c) ops).2.total_cnt_ := Finset.card_range _

/-- Concrete instance of C7: a valid three-call trace on a 2-slot pool
issues at most `total_cnt = 2` distinct addresses. -/
theorem claim_c7_witness :
    (run (mkPool 2) [Op.get, Op.ret 0, Op.get]).total_cnt_
        ≤ (run (mkPool 2) ([Op.get, Op.ret 0, Op.get] ++ [Op.get])).total_cnt_ ∧
    (run (mkPool 2) [Op.get, Op.ret 0, Op.get]).cnt_
        ∣ (run (mkPool 2) [Op.get, Op.ret 0, Op.get]).total_cnt_ ∧
    (runTrace (mkPool 2) [Op.get, Op.ret 0, Op.get]).1.toFinset.card
        ≤ (runTrace (mkPool 2) [Op.get, Op.ret 0, Op.get]).2.total_cnt_ :=
  claim_c7_arena_invariants 2 [Op.get, Op.ret 0, Op.get] [Op.get] (by decide)

/-! ### The registry channel -/

/-- After `erasePool`, the entry for the erased type exists and holds the
set-erased pool list. -/
lemma findSet_erasePool_self (t : TypeIdx) (p : PoolId) : ∀ ps : Pools,
    findSet (erasePool t p ps) t = some (setErase p ((findSet ps t).getD [])) := by
  intro ps
  induction ps with
  | nil => simp [erasePool, findSet, setErase]
  | cons e rest ih =>
    rcases e with ⟨u, s⟩
    by_cases h : u = t
    · subst h
      simp [erasePool, findSet]
    · simp [erasePool, findSet, h, ih]

/-- Erasing an element of a duplicate-free set removes it entirely. -/
lemma not_mem_setErase_self (p : PoolId) : ∀ s : List PoolId, s.Nodup →
    p ∉ setErase p s := by
  intro s
  induction s with
  | nil => intro _; simp [setErase]
  | cons x rest ih =>
    intro hnd
    rcases List.nodup_cons.mp hnd with ⟨hx, hrest⟩
    by_cases h : x = p
    · subst h
      simpa [setErase] using hx
    · simp only [setErase, if_neg h]
      intro hmem
      rcases List.mem_cons.mp hmem with h1 | h1
      · exact h h1.symm
      · exact ih hrest h1

/-- Whatever `setErase` keeps was already in the set. -/
lemma mem_of_mem_setErase (p q : PoolId) : ∀ s : List PoolId,
    q ∈ setErase p s → q ∈ s := by
  intro s
  induction s with
  | nil => simp [setErase]
  | cons x rest ih =>
    by_cases h : x = p
    · simp only [setErase, if_pos h]
      intro hm
      exact List.mem_cons_of_mem x hm
    · simp only [setErase, if_neg h]
      intro hm
      rcases List.mem_cons.mp hm with h1 | h1
      · exact h1 ▸ List.mem_cons_self x rest
      · exact List.mem_cons_of_mem x (ih h1)

/-- A successful lookup returns an actual entry of the map. -/
lemma findSet_mem : ∀ (ps : Pools) (t : TypeIdx) (s : List PoolId),
    findSet ps t = some s → (t, s) ∈ ps := by
  intro ps
  induction ps with
  | nil => intro t s h; simp [findSet] at h
  | cons e rest ih =>
    rcases e with ⟨u, s0⟩
    intro t s hf
    by_cases h : u = t
    · subst h
      have : s0 = s := by simpa [findSet] using hf
      subst this
      exact List.mem_cons_self _ _
    · simp only [findSet, if_neg h] at hf
      exact List.mem_cons_of_mem _ (ih t s hf)

/-- Every buffered pool occurs in the `pass_all` replay burst. -/
lemma mem_passList_of_buffered (u : TypeIdx) (q : PoolId) : ∀ (ps : Pools)
    (s : List PoolId), findSet ps u = some s → q ∈ s →
    Event.created u q ∈ passList ps := by
  intro ps
  induction ps with
  | nil => intro s h; simp [findSet] at h
  | cons e rest ih =>
    rcases e with ⟨t, s0⟩
    intro s hf hq
    by_cases h : t = u
    · subst h
      have hs : s0 = s := by simpa [findSet] using hf
      subst hs
      simp only [passList]
      exact List.mem_append.mpr (Or.inl (List.mem_map_of_mem (Event.created t) hq))
    · simp only [findSet, if_neg h] at hf
      simp only [passList]
      exact List.mem_append.mpr (Or.inr (ih s hf hq))

/-- Membership in an `unordered_set` after insert. -/
lemma mem_setInsert (p0 q : PoolId) (s : List PoolId) :
    q ∈ setInsert p0 s ↔ q = p0 ∨ q ∈ s := by
  by_cases h : p0 ∈ s
  · simp only [setInsert, if_pos h]
    constructor
    · exact Or.inr
    · rintro (rfl | hq)
      · exact h
      · exact hq
  · simp [setInsert, if_neg h, List.mem_append, or_comm]

/-- Insert keeps an `unordered_set` duplicate-free. -/
lemma setInsert_nodup (p0 : PoolId) (s : List PoolId) (h : s.Nodup) :
    (setInsert p0 s).Nodup := by
  by_cases hm : p0 ∈ s
  · simpa [setInsert, hm] using h
  · simp [setInsert, hm, List.nodup_append, h]

/-- Erase keeps an `unordered_set` duplicate-free. -/
lemma setErase_nodup (p0 : PoolId) : ∀ s : List PoolId, s.Nodup →
    (setErase p0 s).Nodup := by
  intro s
  induction s with
  | nil => intro h; simp [setErase]
  | cons x rest ih =>
    intro h
    rcases List.nodup_cons.mp h with ⟨hx, hrest⟩
    by_cases he : x = p0
    · simpa [setErase, he] using hrest
    · simp only [setErase, if_neg he]
      exact List.nodup_cons.mpr
        ⟨fun hm => hx (mem_of_mem_setErase p0 x rest hm), ih hrest⟩

/-- Membership in a duplicate-free `unordered_set` after erase. -/
lemma mem_setErase (p0 q : PoolId) : ∀ s : List PoolId, s.Nodup →
    (q ∈ setErase p0 s ↔ q ∈ s ∧ q ≠ p0) := by
  intro s
  induction s with
  | nil => intro _; simp [setErase]
  | cons x rest ih =>
    intro h
    rcases List.nodup_cons.mp h with ⟨hx, hrest⟩
    by_cases he : x = p0
    · subst he
      simp only [setErase, if_pos rfl]
      constructor
      · intro hq
        exact ⟨List.mem_cons_of_mem x hq, fun he2 => hx (he2 ▸ hq)⟩
      · rintro ⟨hq, hne⟩
        rcases List.mem_cons.mp hq with h1 | h1
        · exact absurd h1 hne
        · exact h1
    · simp only [setErase, if_neg he, List.mem_cons]
      rw [ih hrest]
      constructor
      · rintro (rfl | ⟨hq, hne⟩)
        · exact ⟨Or.inl rfl, fun hc => he hc⟩
        · exact ⟨Or.inr hq, hne⟩
      · rintro ⟨rfl | hq, hne⟩
        · exact Or.inl rfl
        · exact Or.inr ⟨hq, hne⟩

/-- A map holds no entry for a key absent from its key list. -/
lemma findSet_none_of_not_mem (u : TypeIdx) : ∀ ps : Pools,
    u ∉ ps.map Prod.fst → findSet ps u = none := by
  intro ps
  induction ps with
  | nil => intro _; rfl
  | cons e rest ih =>
    rcases e with ⟨t1, s1⟩
    intro h
    simp only [List.map_cons, List.mem_cons] at h
    push_neg at h
    simp only [findSet, if_neg (Ne.symm h.1)]
    exact ih h.2

/-- A successful lookup's key occurs in the key list. -/
lemma mem_keys_of_findSet (u : TypeIdx) (s : List PoolId) (ps : Pools)
    (h : findSet ps u = some s) : u ∈ ps.map Prod.fst := by
  by_contra hc
  rw [findSet_none_of_not_mem u ps hc] at h
  exact Option.noConfusion h

/-- Key list after `operator[]`-insert: unchanged, or the new key at the
end. -/
lemma keys_insertPool (t0 : TypeIdx) (p0 : PoolId) : ∀ ps : Pools,
    (insertPool t0 p0 ps).map Prod.fst
      = if t0 ∈ ps.map Prod.fst then ps.map Prod.fst
        else ps.map Prod.fst ++ [t0] := by
  intro ps
  induction ps with
  | nil => simp [insertPool]
  | cons e rest ih =>
    rcases e with ⟨t1, s1⟩
    by_cases h : t1 = t0
    · subst h
      simp [insertPool]
    · by_cases h2 : t0 ∈ rest.map Prod.fst
      · simp [insertPool, h, ih, h2, Ne.symm h]
      · simp [insertPool, h, ih, h2, Ne.symm h]

/-- Key list after `operator[]`-erase: unchanged, or the key appended by
the default construction. -/
lemma keys_erasePool (t0 : TypeIdx) (p0 : PoolId) : ∀ ps : Pools,
    (erasePool t0 p0 ps).map Prod.fst
      = if t0 ∈ ps.map Prod.fst then ps.map Prod.fst
        else ps.map Prod.fst ++ [t0] := by
  intro ps
  induction ps with
  | nil => simp [erasePool]
  | cons e rest ih =>
    rcases e with ⟨t1, s1⟩
    by_cases h : t1 = t0
    · subst h
      simp [erasePool]
    · by_cases h2 : t0 ∈ rest.map Prod.fst
      · simp [erasePool, h, ih, h2, Ne.symm h]
      · simp [erasePool, h, ih, h2, Ne.symm h]

/-- Well-formedness of the modelled `unordered_map`: unique keys and
duplicate-free sets — what the C++ containers guarantee by construction. -/
def WFp (ps : Pools) : Prop :=
  (ps.map Prod.fst).Nodup ∧ ∀ e ∈ ps, e.2.Nodup

/-- `insertPool` preserves well-formedness. -/
lemma wf_insertPool (t0 : TypeIdx) (p0 : PoolId) (ps : Pools) (h : WFp ps) :
    WFp (insertPool t0 p0 ps) := by
  obtain ⟨hk, hs⟩ := h
  constructor
  · rw [keys_insertPool]
    by_cases hm : t0 ∈ ps.map Prod.fst
    · simpa [hm] using hk
    · simp [hm, List.nodup_append, hk]
  · intro e he
    clear hk
    induction ps with
    | nil =>
      simp only [insertPool, List.mem_singleton] at he
      subst he
      simp
    | cons e1 rest ih =>
      rcases e1 with ⟨t1, s1⟩
      by_cases h1 : t1 = t0
      · simp only [insertPool, if_pos h1, List.mem_cons] at he
        rcases he with he | he
        · subst he
          exact setInsert_nodup p0 s1 (by simpa using hs (t1, s1) (List.mem_cons_self _ _))
        · exact hs e (List.mem_cons_of_mem _ he)
      · simp only [insertPool, if_neg h1, List.mem_cons] at he
        rcases he with he | he
        · subst he
          exact (by simpa using hs (t1, s1) (List.mem_cons_self _ _))
        · exact ih (fun e2 he2 => hs e2 (List.mem_cons_of_mem _ he2)) he

/-- `erasePool` preserves well-formedness. -/
lemma wf_erasePool (t0 : TypeIdx) (p0 : PoolId) (ps : Pools) (h : WFp ps) :
    WFp (erasePool t0 p0 ps) := by
  obtain ⟨hk, hs⟩ := h
  constructor
  · rw [keys_erasePool]
    by_cases hm : t0 ∈ ps.map Prod.fst
    · simpa [hm] using hk
    · simp [hm, List.nodup_append, hk]
  · intro e he
    clear hk
    induction ps with
    | nil =>
      simp only [erasePool, List.mem_singleton] at he
      subst he
      simp
    | cons e1 rest ih =>
      rcases e1 with ⟨t1, s1⟩
      by_cases h1 : t1 = t0
      · simp only [erasePool, if_pos h1, List.mem_cons] at he
        rcases he with he | he
        · subst he
          exact setErase_nodup p0 s1 (by simpa using hs (t1, s1) (List.mem_cons_self _ _))
        · exact hs e (List.mem_cons_of_mem _ he)
      · simp only [erasePool, if_neg h1, List.mem_cons] at he
        rcases he with he | he
        · subst he
          exact (by simpa using hs (t1, s1) (List.mem_cons_self _ _))
        · exact ih (fun e2 he2 => hs e2 (List.mem_cons_of_mem _ he2)) he

/-- Effect of `insertPool` on any type's stored set. -/
lemma mem_findSet_insertPool (t0 : TypeIdx) (p0 : PoolId) (u : TypeIdx) (q : PoolId) :
    ∀ ps : Pools,
    (q ∈ (findSet (insertPool t0 p0 ps) u).getD []
      ↔ (u = t0 ∧ q = p0) ∨ q ∈ (findSet ps u).getD []) := by
  intro ps
  induction ps with
  | nil =>
    by_cases h : t0 = u
    · subst h
      simp [insertPool, findSet]
    · have h' : ¬(u = t0) := fun hu => h hu.symm
      simp [insertPool, findSet, h, h']
  | cons e rest ih =>
    rcases e with ⟨t1, s1⟩
    by_cases h1 : t1 = t0
    · subst h1
      by_cases h2 : t1 = u
      · subst h2
        simp [insertPool, findSet, mem_setInsert, or_comm]
      · have h' : ¬(u = t1) := fun hu => h2 hu.symm
        simp [insertPool, findSet, h2, h']
    · by_cases h2 : t1 = u
      · subst h2
        have h' : ¬(t1 = t0) := h1
        have h'' : ¬(t1 = t0 ∧ q = p0) := fun hc => h1 hc.1
        simp [insertPool, findSet, h1, h'']
      · simp [insertPool, findSet, h1, h2, ih]

/-- Effect of `erasePool` on any type's stored set (duplicate-free sets). -/
lemma mem_findSet_erasePool (t0 : TypeIdx) (p0 : PoolId) (u : TypeIdx) (q : PoolId) :
    ∀ ps : Pools, (∀ e ∈ ps, e.2.Nodup) →
    (q ∈ (findSet (erasePool t0 p0 ps) u).getD []
      ↔ q ∈ (findSet ps u).getD [] ∧ ¬(u = t0 ∧ q = p0)) := by
  intro ps
  induction ps with
  | nil =>
    intro _
    by_cases h : t0 = u
    · subst h
      simp [erasePool, findSet, setErase]
    · simp [erasePool, findSet, h]
  | cons e rest ih =>
    rcases e with ⟨t1, s1⟩
    intro hnd
    have hs1 : s1.Nodup := by simpa using hnd (t1, s1) (List.mem_cons_self _ _)
    have hrest : ∀ e ∈ rest, e.2.Nodup := fun e he => hnd e (List.mem_cons_of_mem _ he)
    by_cases h1 : t1 = t0
    · subst h1
      by_cases h2 : t1 = u
      · subst h2
        have e1 : erasePool t1 p0 ((t1, s1) :: rest) = (t1, setErase p0 s1) :: rest := by
          simp [erasePool]
        have e2 : findSet ((t1, setErase p0 s1) :: rest) t1 = some (setErase p0 s1) := by
          simp [findSet]
        have e3 : findSet ((t1, s1) :: rest) t1 = some s1 := by simp [findSet]
        rw [e1, e2, e3]
        simp only [Option.getD_some]
        rw [mem_setErase p0 q s1 hs1]
        constructor
        · rintro ⟨hq, hne⟩
          exact ⟨hq, fun hc => hne hc.2⟩
        · rintro ⟨hq, hne⟩
          refine ⟨hq, fun he => hne ⟨by trivial, he⟩⟩
      · have h' : ¬(u = t1) := fun hu => h2 hu.symm
        simp [erasePool, findSet, h2, h']
    · by_cases h2 : t1 = u
      · subst h2
        have h'' : ¬(t1 = t0 ∧ q = p0) := fun hc => h1 hc.1
        simp [erasePool, findSet, h1, h'']
      · simp [erasePool, findSet, h1, h2, ih hrest]

/-- `countEv` distributes over concatenation. -/
lemma countEv_append (e : Event) : ∀ l1 l2 : List Event,
    countEv e (l1 ++ l2) = countEv e l1 + countEv e l2 := by
  intro l1 l2
  induction l1 with
  | nil => simp [countEv]
  | cons x rest ih =>
    show (if x = e then 1 else 0) + countEv e (rest ++ l2) = _
    rw [ih]
    show _ = (if x = e then 1 else 0) + countEv e rest + countEv e l2
    omega

/-- Counting one pool's `created` among a duplicate-free set's burst. -/
lemma countEv_map_same (u : TypeIdx) (q : PoolId) : ∀ s : List PoolId, s.Nodup →
    countEv (Event.created u q) (s.map (Event.created u))
      = if q ∈ s then 1 else 0 := by
  intro s
  induction s with
  | nil => intro _; simp [countEv]
  | cons x rest ih =>
    intro h
    rcases List.nodup_cons.mp h with ⟨hx, hrest⟩
    by_cases he : x = q
    · subst he
      simp [countEv, ih hrest, hx]
    · simp only [List.map_cons, countEv, ih hrest]
      have h1 : ¬(Event.created u x = Event.created u q) := by
        intro hc
        exact he (by injection hc)
      have h2 : ¬(q = x) := fun hc => he hc.symm
      simp [h1, h2, List.mem_cons]

/-- A burst for a different type contributes nothing to the count. -/
lemma countEv_map_other (u t0 : TypeIdx) (q : PoolId) (h : t0 ≠ u) :
    ∀ s : List PoolId, countEv (Event.created u q) (s.map (Event.created t0)) = 0 := by
  intro s
  induction s with
  | nil => rfl
  | cons x rest ih =>
    have : ¬(Event.created t0 x = Event.created u q) := by
      intro hc
      injection hc with h1 _
      exact h h1
    simp [countEv, this, ih]

/-- In a well-formed buffer, the replay burst announces every buffered
pool exactly once. -/
lemma countEv_passList (u : TypeIdx) (q : PoolId) : ∀ ps : Pools, WFp ps →
    countEv (Event.created u q) (passList ps)
      = if q ∈ (findSet ps u).getD [] then 1 else 0 := by
  intro ps
  induction ps with
  | nil => intro _; simp [passList, countEv, findSet]
  | cons e rest ih =>
    rcases e with ⟨t1, s1⟩
    intro hwf
    obtain ⟨hk, hs⟩ := hwf
    have hk' : (t1 :: rest.map Prod.fst).Nodup := by simpa using hk
    rcases List.nodup_cons.mp hk' with ⟨hk1, hkrest⟩
    have hs1 : s1.Nodup := by simpa using hs (t1, s1) (List.mem_cons_self _ _)
    have hwfrest : WFp rest :=
      ⟨hkrest, fun e he => hs e (List.mem_cons_of_mem _ he)⟩
    simp only [passList, countEv_append]
    by_cases h2 : t1 = u
    · subst h2
      have hnone : findSet rest t1 = none :=
        findSet_none_of_not_mem t1 rest hk1
      rw [countEv_map_same t1 q s1 hs1, ih hwfrest, hnone]
      simp [findSet]
    · rw [countEv_map_other u t1 q h2 s1, ih hwfrest]
      simp [findSet, h2]

/-- Every event in a replay burst is the `created` of some buffered pool. -/
lemma mem_passList_inv (e : Event) : ∀ ps : Pools, (ps.map Prod.fst).Nodup →
    e ∈ passList ps →
    ∃ u q, e = Event.created u q ∧ q ∈ (findSet ps u).getD [] := by
  intro ps
  induction ps with
  | nil => intro _ h; simp [passList] at h
  | cons ent rest ih =>
    rcases ent with ⟨t1, s1⟩
    intro hk he
    have hk' : (t1 :: rest.map Prod.fst).Nodup := by simpa using hk
    rcases List.nodup_cons.mp hk' with ⟨hk1, hkrest⟩
    rcases List.mem_append.mp he with h1 | h1
    · rcases List.mem_map.mp h1 with ⟨q, hq, rfl⟩
      exact ⟨t1, q, rfl, by simp [findSet, hq]⟩
    · rcases ih hkrest h1 with ⟨u, q, rfl, hq⟩
      refine ⟨u, q, rfl, ?_⟩
      have hne : t1 ≠ u := by
        intro hc
        subst hc
        rw [findSet_none_of_not_mem t1 rest hk1] at hq
        simp at hq
      simpa [findSet, hne] using hq

/-- A channel with no observer buffers: membership of a pool in the
buffer equals its liveness read off the request trace. -/
lemma chRun_buffer_live (u : TypeIdx) (q : PoolId) : ∀ (reqs : List Req) (ch : Channel),
    ch.mon_ = false → WFp ch.pools_ →
    (decide (q ∈ (findSet (chRun ch reqs).pools_ u).getD [])
      = reqs.foldl (liveStep u q) (decide (q ∈ (findSet ch.pools_ u).getD []))) := by
  intro reqs
  induction reqs with
  | nil => intro ch _ _; rfl
  | cons r reqs ih =>
    intro ch hm hwf
    cases r with
    | create t0 p0 =>
      have hstep : chStep ch (Req.create t0 p0)
          = { ch with pools_ := insertPool t0 p0 ch.pools_ } := by
        simp [chStep, chCreated, hm]
      have hrun : chRun ch (Req.create t0 p0 :: reqs)
          = chRun (chStep ch (Req.create t0 p0)) reqs := rfl
      have hinit : decide (q ∈ (findSet (insertPool t0 p0 ch.pools_) u).getD [])
          = liveStep u q (decide (q ∈ (findSet ch.pools_ u).getD []))
              (Req.create t0 p0) := by
        simp only [liveStep]
        by_cases hc : t0 = u ∧ p0 = q
        · rw [if_pos hc, decide_eq_true_eq, mem_findSet_insertPool]
          exact Or.inl ⟨hc.1.symm, hc.2.symm⟩
        · rw [if_neg hc, decide_eq_decide, mem_findSet_insertPool]
          have : ¬(u = t0 ∧ q = p0) := fun h => hc ⟨h.1.symm, h.2.symm⟩
          tauto
      rw [hrun, ih (chStep ch (Req.create t0 p0)) (by simp [hstep, hm])
        (by rw [hstep]; exact wf_insertPool t0 p0 ch.pools_ hwf),
        List.foldl_cons, hstep]
      exact congrArg (fun b => reqs.foldl (liveStep u q) b) hinit
    | delete t0 p0 =>
      have hstep : chStep ch (Req.delete t0 p0)
          = { ch with pools_ := erasePool t0 p0 ch.pools_ } := by
        simp [chStep, chDeleted, hm]
      have hrun : chRun ch (Req.delete t0 p0 :: reqs)
          = chRun (chStep ch (Req.delete t0 p0)) reqs := rfl
      have hinit : decide (q ∈ (findSet (erasePool t0 p0 ch.pools_) u).getD [])
          = liveStep u q (decide (q ∈ (findSet ch.pools_ u).getD []))
              (Req.delete t0 p0) := by
        simp only [liveStep]
        by_cases hc : t0 = u ∧ p0 = q
        · rw [if_pos hc, decide_eq_false_iff_not,
            mem_findSet_erasePool t0 p0 u q ch.pools_ hwf.2]
          rintro ⟨_, hne⟩
          exact hne ⟨hc.1.symm, hc.2.symm⟩
        · rw [if_neg hc, decide_eq_decide,
            mem_findSet_erasePool t0 p0 u q ch.pools_ hwf.2]
          have : ¬(u = t0 ∧ q = p0) := fun h => hc ⟨h.1.symm, h.2.symm⟩
          tauto
      rw [hrun, ih (chStep ch (Req.delete t0 p0)) (by simp [hstep, hm])
        (by rw [hstep]; exact wf_erasePool t0 p0 ch.pools_ hwf),
        List.foldl_cons, hstep]
      exact congrArg (fun b => reqs.foldl (liveStep u q) b) hinit

/-- The buffered map of an observer-less channel stays well-formed. -/
lemma chRun_wf : ∀ (reqs : List Req) (ch : Channel), ch.mon_ = false →
    WFp ch.pools_ → WFp (chRun ch reqs).pools_ ∧ (chRun ch reqs).mon_ = false := by
  intro reqs
  induction reqs with
  | nil => intro ch hm hwf; exact ⟨hwf, hm⟩
  | cons r reqs ih =>
    intro ch hm hwf
    cases r with
    | create t0 p0 =>
      have hstep : chStep ch (Req.create t0 p0)
          = { ch with pools_ := insertPool t0 p0 ch.pools_ } := by
        simp [chStep, chCreated, hm]
      have := ih (chStep ch (Req.create t0 p0)) (by simp [hstep, hm])
        (by rw [hstep]; exact wf_insertPool t0 p0 ch.pools_ hwf)
      exact this
    | delete t0 p0 =>
      have hstep : chStep ch (Req.delete t0 p0)
          = { ch with pools_ := erasePool t0 p0 ch.pools_ } := by
        simp [chStep, chDeleted, hm]
      have := ih (chStep ch (Req.delete t0 p0)) (by simp [hstep, hm])
        (by rw [hstep]; exact wf_erasePool t0 p0 ch.pools_ hwf)
      exact this

/-- Claim C4: pools registered while no observer is attached are
buffered; installing an observer via `set` immediately replays the
buffer, so the observer receives exactly one `created` per
currently-live pool — every pool constructed so far and none destroyed
so far — and nothing else. -/
theorem claim_c4_attach_replay (reqs : List Req) :
    (∀ u q, countEv (Event.created u q) (chSet true (chRun ⟨[], false⟩ reqs)).2
        = if liveTrace u q reqs then 1 else 0) ∧
    (∀ e ∈ (chSet true (chRun ⟨[], false⟩ reqs)).2,
        ∃ u q, e = Event.created u q ∧ liveTrace u q reqs = true) := by
  have hwf0 : WFp (⟨[], false⟩ : Channel).pools_ := ⟨by simp, by simp⟩
  obtain ⟨hwf, _⟩ := chRun_wf reqs ⟨[], false⟩ rfl hwf0
  have hE : (chSet true (chRun ⟨[], false⟩ reqs)).2
      = passList (chRun ⟨[], false⟩ reqs).pools_ := by
    simp [chSet, pass_all]
  have hlive : ∀ u q,
      decide (q ∈ (findSet (chRun ⟨[], false⟩ reqs).pools_ u).getD [])
        = liveTrace u q reqs := by
    intro u q
    rw [chRun_buffer_live u q reqs ⟨[], false⟩ rfl hwf0]
    rfl
  constructor
  · intro u q
    rw [hE, countEv_passList u q _ hwf]
    by_cases hm : q ∈ (findSet (chRun ⟨[], false⟩ reqs).pools_ u).getD []
    · have hl : liveTrace u q reqs = true := by
        rw [← hlive u q]
        exact decide_eq_true_eq.mpr hm
      rw [if_pos hm, hl, if_pos rfl]
    · have hl : liveTrace u q reqs = false := by
        rw [← hlive u q]
        exact decide_eq_false_iff_not.mpr hm
      rw [if_neg hm, hl]
      simp
  · intro e he
    rw [hE] at he
    rcases mem_passList_inv e _ hwf.1 he with ⟨u, q, rfl, hq⟩
    exact ⟨u, q, rfl, (hlive u q) ▸ decide_eq_true_eq.mpr hq⟩

/-- Concrete instance of C4: after create 10, create 20, delete 10 with
no observer, attaching replays exactly pool 20 once and pool 10 never. -/
theorem claim_c4_witness :
    countEv (Event.created 2 20)
      (chSet true (chRun ⟨[], false⟩
        [Req.create 1 10, Req.create 2 20, Req.delete 1 10])).2 = 1 ∧
    countEv (Event.created 1 10)
      (chSet true (chRun ⟨[], false⟩
        [Req.create 1 10, Req.create 2 20, Req.delete 1 10])).2 = 0 ∧
    (∃ u q, Event.created 2 20 = Event.created u q ∧
      liveTrace u q [Req.create 1 10, Req.create 2 20, Req.delete 1 10] = true) := by
  have h := claim_c4_attach_replay [Req.create 1 10, Req.create 2 20, Req.delete 1 10]
  refine ⟨?_, ?_, h.2 (Event.created 2 20) (by decide)⟩
  · rw [h.1 2 20]
    decide
  · rw [h.1 1 10]
    decide

/-- Claim C2: with no observer, `Channel::created` records the pool in
the buffer and notifies nobody, and `Channel::deleted` removes it from
the buffer; with an observer, `created` forwards the one event and then
replays the entire buffer (every buffered pool receives another
`created`) without touching the buffer, and `deleted` does the mirror
image. -/
theorem claim_c2_channel_cases (ch : Channel) (t : TypeIdx) (p : PoolId)
    (hnd : ∀ e ∈ ch.pools_, e.2.Nodup) :
    (ch.mon_ = false →
      chCreated t p ch = ({ ch with pools_ := insertPool t p ch.pools_ }, []) ∧
      chDeleted t p ch = ({ ch with pools_ := erasePool t p ch.pools_ }, []) ∧
      p ∉ (findSet (chDeleted t p ch).1.pools_ t).getD []) ∧
    (ch.mon_ = true →
      chCreated t p ch = (ch, Event.created t p :: passList ch.pools_) ∧
      chDeleted t p ch = (ch, Event.deleted t p :: passList ch.pools_) ∧
      (∀ u q s, findSet ch.pools_ u = some s → q ∈ s →
        Event.created u q ∈ (chCreated t p ch).2 ∧
        Event.created u q ∈ (chDeleted t p ch).2)) := by
  constructor
  · intro hm
    refine ⟨by simp [chCreated, hm], by simp [chDeleted, hm], ?_⟩
    have hd : (chDeleted t p ch).1.pools_ = erasePool t p ch.pools_ := by
      simp [chDeleted, hm]
    rw [hd, findSet_erasePool_self t p ch.pools_]
    have hsnd : ((findSet ch.pools_ t).getD []).Nodup := by
      rcases hf : findSet ch.pools_ t with _ | s
      · simp
      · simpa using hnd _ (findSet_mem ch.pools_ t s hf)
    exact not_mem_setErase_self p _ hsnd
  · intro hm
    refine ⟨by simp [chCreated, hm, pass_all], by simp [chDeleted, hm, pass_all], ?_⟩
    intro u q s hf hq
    have hmem := mem_passList_of_buffered u q ch.pools_ s hf hq
    constructor
    · simp only [chCreated, hm, if_pos rfl, pass_all]
      exact List.mem_cons_of_mem _ (by simpa [hm] using hmem)
    · simp only [chDeleted, hm, if_pos rfl, pass_all]
      exact List.mem_cons_of_mem _ (by simpa [hm] using hmem)

/-- Concrete instance of C2: on the buffer `{1 ↦ {10}}`, a buffered
delete removes pool 10, and an observed create replays pool 10. -/
theorem claim_c2_witness :
    chDeleted 1 10 ⟨[(1, [10])], false⟩ = (⟨[(1, [])], false⟩, []) ∧
    chCreated 2 20 ⟨[(1, [10])], true⟩
      = (⟨[(1, [10])], true⟩, [Event.created 2 20, Event.created 1 10]) := by
  have h := claim_c2_channel_cases ⟨[(1, [10])], false⟩ 1 10 (by decide)
  have h2 := claim_c2_channel_cases ⟨[(1, [10])], true⟩ 2 20 (by decide)
  refine ⟨?_, ?_⟩
  · rw [(h.1 rfl).2.1]
    rfl
  · rw [(h2.2 rfl).1]
    rfl

/-! ### The attached monitor -/

/-- `eraseEntry` only drops entries. -/
lemma mem_eraseEntry_subset (t : TypeIdx) (e : TypeIdx × List PoolId) :
    ∀ ps : Pools, e ∈ eraseEntry t ps → e ∈ ps := by
  intro ps
  induction ps with
  | nil => intro h; simp [eraseEntry] at h
  | cons e1 rest ih =>
    rcases e1 with ⟨t1, s1⟩
    by_cases h : t1 = t
    · simp only [eraseEntry, if_pos h]
      intro hm
      exact List.mem_cons_of_mem _ hm
    · simp only [eraseEntry, if_neg h, List.mem_cons]
      rintro (rfl | hm)
      · exact Or.inl rfl
      · exact Or.inr (ih hm)

/-- Keys surviving `eraseEntry` were keys before. -/
lemma mem_keys_eraseEntry (t u : TypeIdx) : ∀ ps : Pools,
    u ∈ (eraseEntry t ps).map Prod.fst → u ∈ ps.map Prod.fst := by
  intro ps h
  rcases List.mem_map.mp h with ⟨e, he, rfl⟩
  exact List.mem_map.mpr ⟨e, mem_eraseEntry_subset t e ps he, rfl⟩

/-- With unique keys, `eraseEntry` removes its key entirely. -/
lemma not_mem_keys_eraseEntry (t : TypeIdx) : ∀ ps : Pools,
    (ps.map Prod.fst).Nodup → t ∉ (eraseEntry t ps).map Prod.fst := by
  intro ps
  induction ps with
  | nil => intro _; simp [eraseEntry]
  | cons e1 rest ih =>
    rcases e1 with ⟨t1, s1⟩
    intro hk
    have hk' : (t1 :: rest.map Prod.fst).Nodup := by simpa using hk
    rcases List.nodup_cons.mp hk' with ⟨hk1, hkrest⟩
    by_cases h : t1 = t
    · subst h
      simpa [eraseEntry] using hk1
    · simp only [eraseEntry, if_neg h, List.map_cons, List.mem_cons]
      rintro (rfl | hm)
      · exact h rfl
      · exact ih hkrest hm

/-- `eraseEntry` preserves well-formedness. -/
lemma wf_eraseEntry (t : TypeIdx) (ps : Pools) (h : WFp ps) :
    WFp (eraseEntry t ps) := by
  obtain ⟨hk, hs⟩ := h
  constructor
  · induction ps with
    | nil => simp [eraseEntry]
    | cons e1 rest ih =>
      rcases e1 with ⟨t1, s1⟩
      have hk' : (t1 :: rest.map Prod.fst).Nodup := by simpa using hk
      rcases List.nodup_cons.mp hk' with ⟨hk1, hkrest⟩
      by_cases h1 : t1 = t
      · simpa [eraseEntry, h1] using hkrest
      · simp only [eraseEntry, if_neg h1, List.map_cons]
        refine List.nodup_cons.mpr ⟨fun hm => hk1 (mem_keys_eraseEntry t t1 rest hm), ?_⟩
        exact ih hkrest (fun e he => hs e (List.mem_cons_of_mem _ he))
  · intro e he
    exact hs e (mem_eraseEntry_subset t e ps he)

/-- `Monitor::created` preserves well-formedness of the monitor's map. -/
lemma wf_monCreated (t : TypeIdx) (p : PoolId) (m : MonitorSt) (h : WFp m.pools_) :
    WFp (monCreated t p m).pools_ :=
  wf_insertPool t p m.pools_ h

/-- `Monitor::deleted` preserves well-formedness of the monitor's map. -/
lemma wf_monDeleted (t : TypeIdx) (p : PoolId) (m : MonitorSt) (h : WFp m.pools_) :
    WFp (monDeleted t p m).pools_ := by
  have hw : WFp (erasePool t p m.pools_) := wf_erasePool t p m.pools_ h
  by_cases hb : (findSet (erasePool t p m.pools_) t).getD [] = []
  · simpa [monDeleted, hb] using wf_eraseEntry t _ hw
  · simpa [monDeleted, hb] using hw

/-- With the monitor attached and an empty buffer, one pool construction
reaching the channel is exactly one `Monitor::created` call. -/
lemma sysStep_create (s : System) (h : s.ch = ⟨[], true⟩) (t : TypeIdx) (p : PoolId) :
    sysStep s (Req.create t p) = ⟨⟨[], true⟩, monCreated t p s.mon⟩ := by
  simp [sysStep, chCreated, h, pass_all, passList, monApply]

/-- Likewise one destruction is exactly one `Monitor::deleted` call. -/
lemma sysStep_delete (s : System) (h : s.ch = ⟨[], true⟩) (t : TypeIdx) (p : PoolId) :
    sysStep s (Req.delete t p) = ⟨⟨[], true⟩, monDeleted t p s.mon⟩ := by
  simp [sysStep, chDeleted, h, pass_all, passList, monApply]

/-- Invariant of the attached system: the channel's buffer stays empty
(nothing is buffered while an observer is attached) and the monitor's
map stays well-formed. -/
lemma sysRun_inv : ∀ (reqs : List Req) (s : System), s.ch = ⟨[], true⟩ →
    WFp s.mon.pools_ →
    (sysRun s reqs).ch = ⟨[], true⟩ ∧ WFp (sysRun s reqs).mon.pools_ := by
  intro reqs
  induction reqs with
  | nil => intro s h hwf; exact ⟨h, hwf⟩
  | cons r reqs ih =>
    intro s h hwf
    cases r with
    | create t p =>
      have hs := sysStep_create s h t p
      have : sysRun s (Req.create t p :: reqs) = sysRun (sysStep s (Req.create t p)) reqs := rfl
      rw [this, hs]
      exact ih _ rfl (wf_monCreated t p s.mon hwf)
    | delete t p =>
      have hs := sysStep_delete s h t p
      have : sysRun s (Req.delete t p :: reqs) = sysRun (sysStep s (Req.delete t p)) reqs := rfl
      rw [this, hs]
      exact ih _ rfl (wf_monDeleted t p s.mon hwf)

/-- An absent lookup means the key occurs nowhere in the map. -/
lemma not_mem_keys_of_findSet_none (u : TypeIdx) : ∀ ps : Pools,
    findSet ps u = none → u ∉ ps.map Prod.fst := by
  intro ps
  induction ps with
  | nil => intro _; simp
  | cons e1 rest ih =>
    rcases e1 with ⟨t1, s1⟩
    intro h
    by_cases h1 : t1 = u
    · rw [findSet, if_pos h1] at h
      exact Option.noConfusion h
    · rw [findSet, if_neg h1] at h
      simp only [List.map_cons, List.mem_cons]
      rintro (rfl | hm)
      · exact h1 rfl
      · exact ih h hm

/-- The types `stat` reports are exactly the types in the monitor's map. -/
lemma stat_keys (m : MonitorSt) (env : PoolId → Nat × Nat) :
    (stat m env).map Prod.fst = m.pools_.map Prod.fst := by
  simp [stat]

/-- After `Monitor::deleted`, the deleted identity is gone from its
type's set, and when it was the last one the whole type entry is gone. -/
lemma monDeleted_absent (t : TypeIdx) (p : PoolId) (m : MonitorSt) (hwf : WFp m.pools_) :
    p ∉ (findSet (monDeleted t p m).pools_ t).getD [] ∧
    (findSet m.pools_ t = some [p] → findSet (monDeleted t p m).pools_ t = none) := by
  have hw : WFp (erasePool t p m.pools_) := wf_erasePool t p m.pools_ hwf
  have hfind := findSet_erasePool_self t p m.pools_
  have hs0 : ((findSet m.pools_ t).getD []).Nodup := by
    rcases hf : findSet m.pools_ t with _ | s
    · simp
    · simpa using hwf.2 _ (findSet_mem m.pools_ t s hf)
  constructor
  · by_cases hb : (findSet (erasePool t p m.pools_) t).getD [] = []
    · have : monDeleted t p m = ⟨eraseEntry t (erasePool t p m.pools_)⟩ := by
        simp [monDeleted, hb]
      rw [this]
      rw [findSet_none_of_not_mem t _ (not_mem_keys_eraseEntry t _ hw.1)]
      simp
    · have : monDeleted t p m = ⟨erasePool t p m.pools_⟩ := by
        simp [monDeleted, hb]
      rw [this, hfind]
      simpa using not_mem_setErase_self p _ hs0
  · intro hone
    have hb : (findSet (erasePool t p m.pools_) t).getD [] = [] := by
      rw [hfind, hone]
      simp [setErase]
    have : monDeleted t p m = ⟨eraseEntry t (erasePool t p m.pools_)⟩ := by
      simp [monDeleted, hb]
    rw [this]
    exact findSet_none_of_not_mem t _ (not_mem_keys_eraseEntry t _ hw.1)

/-- Claim C3: with the Monitor attached as the observer for the whole
run, destroying a pool removes its identity from the next `stat` query,
and when it was the last pool of its element type the type disappears
from the result altogether. -/
theorem claim_c3_destroy_invisible (reqs : List Req) (t : TypeIdx) (p : PoolId) :
    p ∉ (findSet (sysStep (sysRun sys0 reqs) (Req.delete t p)).mon.pools_ t).getD [] ∧
    (findSet (sysRun sys0 reqs).mon.pools_ t = some [p] →
      findSet (sysStep (sysRun sys0 reqs) (Req.delete t p)).mon.pools_ t = none ∧
      ∀ env, t ∉ (stat (sysStep (sysRun sys0 reqs) (Req.delete t p)).mon env).map Prod.fst) ∧
    (∀ env, (stat (sysStep (sysRun sys0 reqs) (Req.delete t p)).mon env).map Prod.fst
        = (sysStep (sysRun sys0 reqs) (Req.delete t p)).mon.pools_.map Prod.fst) := by
  obtain ⟨hch, hwf⟩ := sysRun_inv reqs sys0 rfl ⟨by simp [sys0], by simp [sys0]⟩
  have hs := sysStep_delete (sysRun sys0 reqs) hch t p
  obtain ⟨h1, h2⟩ := monDeleted_absent t p (sysRun sys0 reqs).mon hwf
  refine ⟨by rw [hs]; exact h1, ?_, ?_⟩
  · intro hone
    have hnone := h2 hone
    refine ⟨by rw [hs]; exact hnone, ?_⟩
    intro env
    rw [hs, stat_keys]
    exact not_mem_keys_of_findSet_none t _ hnone
  · intro env
    rw [stat_keys]

/-- Concrete instance of C3: create pool 10 of type 1 under the
attached monitor, destroy it, and both the pool and its type vanish
from the diagnostics. -/
theorem claim_c3_witness :
    10 ∉ (findSet (sysStep (sysRun sys0 [Req.create 1 10]) (Req.delete 1 10)).mon.pools_ 1).getD [] ∧
    findSet (sysRun sys0 [Req.create 1 10]).mon.pools_ 1 = some [10] ∧
    findSet (sysStep (sysRun sys0 [Req.create 1 10]) (Req.delete 1 10)).mon.pools_ 1 = none ∧
    1 ∉ (stat (sysStep (sysRun sys0 [Req.create 1 10]) (Req.delete 1 10)).mon
        (fun _ => (0, 0))).map Prod.fst := by
  have h := claim_c3_destroy_invisible [Req.create 1 10] 1 10
  exact ⟨h.1, by decide, (h.2.1 (by decide)).1, (h.2.1 (by decide)).2 (fun _ => (0, 0))⟩

/-! ### `Monitor::stat` is read-only -/

/-- Writing back the pool just read leaves the heap unchanged. -/
lemma worldSet_get (w : World) (i : PoolId) : worldSet w i (worldGet w i) = w := by
  induction w with
  | nil => rfl
  | cons e rest ih =>
    rcases e with ⟨j, p⟩
    by_cases h : j = i
    · simp [worldGet, worldSet, h]
    · simp only [worldGet, worldSet, if_neg h]
      rw [ih]

/-- The inner `stat` loop returns the pure counter sums and leaves the
heap exactly as it was. -/
lemma statSet_pure (s : List PoolId) : ∀ w : World,
    statSet w s =
      (((s.map fun i => (envOf w i).1).sum, (s.map fun i => (envOf w i).2).sum), w) := by
  induction s with
  | nil => intro w; simp [statSet]
  | cons i s ih =>
    intro w
    simp only [statSet, total_cnt, use_cnt, worldSet_get]
    rw [ih w]
    simp [envOf]

/-- The outer `stat` loop builds the pure snapshot and leaves the heap
unchanged. -/
lemma statGo_pure (ps : Pools) : ∀ w : World,
    statGo w ps =
      (ps.map fun ts =>
        (ts.1,
          (⟨(ts.2.map fun i => (envOf w i).1).sum,
            (ts.2.map fun i => (envOf w i).2).sum,
            ts.2.length⟩ : Count)), w) := by
  induction ps with
  | nil => intro w; simp [statGo]
  | cons e rest ih =>
    intro w
    rcases e with ⟨t, s⟩
    simp only [statGo, statSet_pure]
    rw [ih w]
    simp

/-- Claim C9: `Monitor::stat` has no side effect: it returns the same
snapshot as the pure aggregation of the two counter accessors, and both
the monitor's own map and every pool behind the heap are returned
unchanged. -/
theorem claim_c9_stat_readonly (m : MonitorSt) (w : World) :
    statW m w = (stat m (envOf w), m, w) ∧
    (∀ p : Pool, total_cnt p = (p.total_cnt_, p) ∧ use_cnt p = (p.use_cnt_, p)) := by
  constructor
  · show (let r := statGo w m.pools_; (r.1, m, r.2)) = _
    rw [statGo_pure m.pools_ w]
    rfl
  · intro p
    exact ⟨rfl, rfl⟩
/-! ### Construction and warm-up -/

/-- The function-local `static`/`thread_local` pool of `get_tls_pool` and
`get_singleton_pool` (src/pool.h:237-242, 280-285): the construction
argument is used only when no pool exists yet; later calls return the
existing pool untouched, so a later warm-up hint is ignored. -/
def poolOnce (existing : Option Pool) (cnt : Int) : Pool :=
  match existing with
  | some p => p
  | none => mkPool cnt

/-- Client calls never change the configured block size. -/
lemma step_cnt (p : Pool) (o : Op) : (step p o).cnt_ = p.cnt_ := by
  cases o with
  | get => exact get_cnt p
  | ret a => rfl

/-- Neither does a whole call sequence. -/
lemma run_cnt (ops : List Op) : ∀ p : Pool, (run p ops).cnt_ = p.cnt_ := by
  induction ops with
  | nil => intro p; rfl
  | cons o ops ih =>
    intro p
    show (run (step p o) ops).cnt_ = p.cnt_
    rw [ih (step p o), step_cnt]

/-- Claim C8: a positive constructor hint fixes the block size for the
pool's lifetime and eagerly allocates one block (`total_cnt = cnt`); a
non-positive hint keeps the default 128 and allocates nothing until the
first `get()` (which then allocates 128 slots); a warm-up hint after the
pool's first creation has no effect. -/
theorem claim_c8_construction (c : Int) (ops : List Op) :
    (0 < c →
      (mkPool c).cnt_ = c.toNat ∧ (mkPool c).total_cnt_ = c.toNat ∧
      (mkPool c).blocks_ = [0]) ∧
    (c ≤ 0 →
      mkPool c = poolInit ∧ poolInit.cnt_ = 128 ∧ poolInit.total_cnt_ = 0 ∧
      poolInit.blocks_ = [] ∧ (get (mkPool c)).2.total_cnt_ = 128) ∧
    (run (mkPool c) ops).cnt_ = (mkPool c).cnt_ ∧
    (∀ p : Pool, poolOnce (some p) c = p) := by
  refine ⟨?_, ?_, run_cnt ops (mkPool c), fun p => rfl⟩
  · intro hc
    simp [mkPool, hc, new_block, poolInit]
  · intro hc
    have hm : mkPool c = poolInit := by simp [mkPool, Int.not_lt.mpr hc]
    refine ⟨hm, rfl, rfl, rfl, ?_⟩
    rw [hm, get_grow poolInit rfl (le_refl 0)]
    rfl

/-- Concrete instance of C8: hint 4 gives a 4-slot first block; hint 0
gives the default 128 and an empty pool. -/
theorem claim_c8_witness :
    ((0 : Int) < 4 ∧ (mkPool 4).cnt_ = 4 ∧ (mkPool 4).total_cnt_ = 4) ∧
    ((0 : Int) ≤ 0 ∧ mkPool 0 = poolInit ∧ (get (mkPool 0)).2.total_cnt_ = 128) := by
  have h4 := (claim_c8_construction 4 []).1 (by decide)
  have h0 := (claim_c8_construction 0 []).2.1 (by decide)
  exact ⟨⟨by decide, h4.1, h4.2.1⟩, ⟨by decide, h0.1, h0.2.2.2.2⟩⟩

/-- Concrete instance of C10: one `ret` on a fresh pool wraps the gauge
to `2 ^ 64 - 1`. -/
theorem claim_c10_witness :
    ((run (mkPool 0) [Op.ret 5]).use_cnt_ : Int) = 2 ^ 64 - 1 ∧
    (ret poolInit 5).use_cnt_ = 2 ^ 64 - 1 := by
  have h := claim_c10_uint64_wrap 0 [Op.ret 5]
  exact ⟨by rw [h.1]; decide, h.2 poolInit 5 rfl⟩
example : (get (mkPool 1)).1 = 0 := by decide
example : (run (mkPool 1) [Op.get, Op.get]).total_cnt_ = 2 := by decide
example : (runTrace (mkPool 2) [Op.get, Op.ret 0, Op.get]).1 = [0, 0] := by decide

end VanPool
